import Mathlib

/-!
Shallow embedding of the scheduling core of `src/app.py` of the
Timeline_Calculator repository: the calendar helper `add_days` and the
resolver `compute_table_logic`, together with the `Duration` and
`Progress` column computations.

Conventions of the embedding:
* Dates are integers counting days, with day 0 a Monday, so that
  `weekday d = d % 7` agrees with Python `datetime.weekday` (Monday = 0).
  Day 0 can be read as 2024-01-01, which is a Monday.
* Numeric cells are rationals; a pandas `NaN` cell (missing or
  non-numeric input, coerced by `pd.to_numeric`/`pd.to_datetime` with
  `errors="coerce"`) is `none`.
* The float values the `Duration` and `Progress` columns can take
  (finite, `nan`, `inf`, `-inf`) are modelled by `FV`.
* `int(np.ceil(x))` raises `ValueError`/`OverflowError` on `nan` and
  on infinities, so the fallible parts of `compute_table_logic` return
  `Except Unit`.
-/

/-- A pandas float cell value: finite rational, `NaN`, `inf` or `-inf`. -/
inductive FV where
  | num (q : ℚ)
  | nan
  | pinf
  | ninf
deriving DecidableEq, Repr

/-- Rounding of a finite value to the nearest integer, ties to even,
as numpy and hence pandas `Series.round` do. -/
def roundHalfEven (q : ℚ) : ℤ :=
  let f := Int.floor q
  let r := q - (f : ℚ)
  if r < 1 / 2 then f
  else if 1 / 2 < r then f + 1
  else if f % 2 = 0 then f else f + 1

/-- pandas `.round(2)`: round to two decimal places, ties to even. -/
def round2 (q : ℚ) : ℚ := (roundHalfEven (q * 100) : ℚ) / 100

/-- The `Duration` column of `compute_table_logic`, line 82 of
`src/app.py`: `(df["Planned Depth"] / drill_rate).round(2)`.
A `NaN` planned depth gives a `NaN` duration; float division of a
nonzero depth by a zero rate gives a signed infinity, `0/0` gives
`NaN`; `.round(2)` keeps `nan` and infinities. -/
def durationFV (plannedDepth : Option ℚ) (drill_rate : ℚ) : FV :=
  match plannedDepth with
  | none => FV.nan
  | some p =>
    if drill_rate = 0 then
      if 0 < p then FV.pinf else if p < 0 then FV.ninf else FV.nan
    else FV.num (round2 (p / drill_rate))

/-- The `Progress` column, line 140 of `src/app.py`:
`(df["Current Depth"] / df["Planned Depth"] * 100).round(2).fillna(0)`.
`Current Depth` has already been filled with `0` for `NaN`, so only
`Planned Depth` can be missing.  Division of a nonzero value by zero
yields a signed infinity (which `.fillna(0)` does not touch); `0/0`
and division by `NaN` yield `NaN`, which `.fillna(0)` turns into `0`. -/
def progressOf (plannedDepth : Option ℚ) (currentDepth : ℚ) : FV :=
  match plannedDepth with
  | none => FV.num 0
  | some p =>
    if p = 0 then
      if 0 < currentDepth then FV.pinf
      else if currentDepth < 0 then FV.ninf
      else FV.num 0
    else FV.num (round2 (currentDepth / p * 100))

/-- One unit of the `while` loop of `add_days` in business-day mode:
step forward one calendar day at a time until a day with
`weekday < 5` is reached and counted.  At most two consecutive
weekend days exist, so the counted day is `d+1`, `d+2` or `d+3`. -/
def nextBusiness (d : ℤ) : ℤ :=
  if (d + 1) % 7 < 5 then d + 1
  else if (d + 2) % 7 < 5 then d + 2
  else d + 3

/-- Count `n` business days forward from `d`, one counted weekday at
a time, exactly as the `while days_added < days_to_add` loop does. -/
def addBusinessDays (d : ℤ) : ℕ → ℤ
  | 0 => d
  | n + 1 => addBusinessDays (nextBusiness d) n

/-- `add_days` from `src/app.py` (lines 60 to 76).  In business-day
mode the loop body runs only while `days_added < days_to_add`, so a
non-positive `days_to_add` returns the date unchanged (`Int.toNat`
sends non-positive integers to `0`); in 7-day mode the days are added
directly. -/
def add_days (start_date : ℤ) (days_to_add : ℤ) (business_days_only : Bool) : ℤ :=
  if business_days_only then addBusinessDays start_date days_to_add.toNat
  else start_date + days_to_add

/-- Python `str.strip()`: drop whitespace from both ends. -/
def pyStrip (s : String) : String :=
  ⟨((s.data.dropWhile Char.isWhitespace).reverse.dropWhile Char.isWhitespace).reverse⟩

/-- An input record of `compute_table_logic`, one dataframe row, with
the column coercions of the presentation boundary already applied:
dates are parsed (`none` for empty or unparseable), depths are
numeric or `none` for `NaN`, `HoleID`, `Rigs` and `Dependency` are
strings. -/
structure Row where
  holeID : String
  startDate : Option ℤ
  endDate : Option ℤ
  plannedDepth : Option ℚ
  rig : String
  currentDepth : Option ℚ
  dependency : String
deriving DecidableEq, Repr

/-- A working row of the resolver: the computed `Duration` column,
the filled `Current Depth`, and the mutable `Start_parsed` /
`End_parsed` columns. -/
structure WRow where
  holeID : String
  rig : String
  dep : String
  dur : FV
  pdepth : Option ℚ
  cur : ℚ
  start : Option ℤ
  stop : Option ℤ
deriving DecidableEq, Repr

/-- An output record: the resolved dates plus the computed
`Duration` and `Progress` columns. -/
structure ORow where
  holeID : String
  rig : String
  dep : String
  dur : FV
  start : Option ℤ
  stop : Option ℤ
  progress : FV
deriving DecidableEq, Repr

/-- Lines 80 to 86 of `src/app.py`: coerce the numeric columns, fill
`Current Depth` with `0`, compute `Duration`, parse the dates.  The
`Dependency` cell is read through `str(...).strip()` in the loop; the
cell is never written, so stripping once here is the same. -/
def prep (drill_rate : ℚ) (r : Row) : WRow :=
  { holeID := r.holeID
    rig := r.rig
    dep := pyStrip r.dependency
    dur := durationFV r.plannedDepth drill_rate
    pdepth := r.plannedDepth
    cur := r.currentDepth.getD 0
    start := r.startDate
    stop := r.endDate }

/-- One row of the end-filling sweeps (lines 89 to 92 and 131 to 135):
if `Start_parsed` is set and `End_parsed` is not, set
`End_parsed = add_days(start, int(np.ceil(Duration)))`; `int(np.ceil ...)`
raises when `Duration` is `nan` or infinite. -/
def fillEnd (pol : Bool) (r : WRow) : Except Unit WRow :=
  match r.start, r.stop with
  | some s, none =>
    match r.dur with
    | FV.num q => Except.ok { r with stop := some (add_days s (Int.ceil q) pol) }
    | _ => Except.error ()
  | _, _ => Except.ok r

/-- An end-filling sweep over the whole table, in input order,
stopping at the first raising row. -/
def fillEnds (pol : Bool) : List WRow → Except Unit (List WRow)
  | [] => Except.ok []
  | r :: rs =>
    match fillEnd pol r with
    | Except.error e => Except.error e
    | Except.ok r' =>
      match fillEnds pol rs with
      | Except.error e => Except.error e
      | Except.ok rs' => Except.ok (r' :: rs')

/-- Index of the first list entry satisfying `p`, i.e.
`df.index[df["HoleID"] == dep].tolist()` followed by `[0]`. -/
def firstIdx (p : α → Bool) : List α → Option ℕ
  | [] => none
  | a :: as => if p a then some 0 else (firstIdx p as).map (· + 1)

/-- The body of the dependency loop (lines 99 to 126) for the row at
index `i` of the working table `st`.  Returns the updated table and
whether this row changed something.  The Python code sets
`Start_parsed` at line 123 before `int(np.ceil(row["Duration"]))` can
raise at line 124, but the raised exception discards the working copy,
which the `Except.error` models. -/
def depStep (pol : Bool) (st : List WRow) (i : ℕ) : Except Unit (List WRow × Bool) :=
  match st.get? i with
  | none => Except.ok (st, false)
  | some row =>
    if row.dep = "" then Except.ok (st, false)
    else
      match firstIdx (fun r => r.holeID == row.dep) st with
      | none => Except.ok (st, false)
      | some j =>
        match st.get? j with
        | none => Except.ok (st, false)
        | some depRow =>
          match depRow.stop with
          | none => Except.ok (st, false)
          | some depEnd =>
            if row.rig = depRow.rig then
              if row.start = some (add_days depEnd 1 pol) then Except.ok (st, false)
              else
                match row.dur with
                | FV.num q =>
                  Except.ok
                    (st.set i
                      { row with
                        start := some (add_days depEnd 1 pol)
                        stop := some (add_days (add_days depEnd 1 pol) (Int.ceil q) pol) },
                      true)
                | _ => Except.error ()
            else Except.ok (st, false)

/-- Fold `depStep` over a list of row indices, threading the working
table and the pass-wide `changed` flag. -/
def depPassGo (pol : Bool) : List ℕ → List WRow → Bool → Except Unit (List WRow × Bool)
  | [], st, ch => Except.ok (st, ch)
  | i :: rest, st, ch =>
    match depStep pol st i with
    | Except.error e => Except.error e
    | Except.ok (st', ch') => depPassGo pol rest st' (ch || ch')

/-- One full pass of the dependency loop: every row in input order,
updates visible to later rows of the same pass. -/
def depPass (pol : Bool) (st : List WRow) : Except Unit (List WRow × Bool) :=
  depPassGo pol (List.range st.length) st false

/-- The bounded dependency loop (lines 95 to 129): run passes until a
pass reports no change or the fuel is exhausted.  Also returns the
number of pass bodies that were executed. -/
def depLoop (pol : Bool) : ℕ → List WRow → Except Unit (List WRow × ℕ)
  | 0, st => Except.ok (st, 0)
  | fuel + 1, st =>
    match depPass pol st with
    | Except.error e => Except.error e
    | Except.ok (st', ch) =>
      if ch then
        match depLoop pol fuel st' with
        | Except.error e => Except.error e
        | Except.ok (st'', k) => Except.ok (st'', k + 1)
      else Except.ok (st', 1)

/-- The three date-resolving stages of `compute_table_logic` in order:
initial end fill, dependency loop with `maxPasses` fuel, final end
fill.  Returns the resolved table and the number of loop passes. -/
def runPasses (pol : Bool) (maxPasses : ℕ) (st : List WRow) : Except Unit (List WRow × ℕ) :=
  match fillEnds pol st with
  | Except.error e => Except.error e
  | Except.ok st1 =>
    match depLoop pol maxPasses st1 with
    | Except.error e => Except.error e
    | Except.ok (st2, k) =>
      match fillEnds pol st2 with
      | Except.error e => Except.error e
      | Except.ok st3 => Except.ok (st3, k)

/-- The display step (lines 138 to 140): keep the resolved dates and
attach the `Progress` column. -/
def finish (r : WRow) : ORow :=
  { holeID := r.holeID
    rig := r.rig
    dep := r.dep
    dur := r.dur
    start := r.start
    stop := r.stop
    progress := progressOf r.pdepth r.cur }

/-- `compute_table_logic` from `src/app.py` (lines 78 to 142),
additionally reporting the number of dependency-loop passes executed.
The pass budget is `max_passes = len(df) * 2` (line 95). -/
def compute_table_logic_full (rows : List Row) (drill_rate : ℚ) (business_days_only : Bool) :
    Except Unit (List ORow × ℕ) :=
  match runPasses business_days_only (2 * rows.length) (rows.map (prep drill_rate)) with
  | Except.error e => Except.error e
  | Except.ok (st, k) => Except.ok (st.map finish, k)

/-- `compute_table_logic` from `src/app.py`: the resolved table. -/
def compute_table_logic (rows : List Row) (drill_rate : ℚ) (business_days_only : Bool) :
    Except Unit (List ORow) :=
  match compute_table_logic_full rows drill_rate business_days_only with
  | Except.error e => Except.error e
  | Except.ok (out, _) => Except.ok out

/-- A python object a dataframe variable can point to, at the three
stages `compute_table_logic` takes its working frame through. -/
inductive DF where
  | input (rows : List Row)
  | working (st : List WRow)
  | done (rows : List ORow)
deriving DecidableEq

/-- A store of dataframe objects addressed by reference, to express
which object the in-place `df.at` writes of `compute_table_logic` hit. -/
def Heap := ℕ → DF

/-- Write the object at reference `i`. -/
def hset (h : Heap) (i : ℕ) (v : DF) : Heap := fun j => if j = i then v else h j

/-- `compute_table_logic` at the object level: the caller's frame is
at `inRef`; line 79 (`df = df.copy()`) allocates a fresh object at
`outRef`, and every subsequent column assignment and `df.at` write of
lines 80 to 140 targets `outRef`.  A raised exception leaves the store
as written so far.  Returns the final store and the call status. -/
def compute_table_logic_heap (h : Heap) (inRef outRef : ℕ) (drill_rate : ℚ) (pol : Bool) :
    Heap × Except Unit Unit :=
  match h inRef with
  | DF.input rows =>
    let h1 := hset h outRef (DF.input rows)
    let h2 := hset h1 outRef (DF.working (rows.map (prep drill_rate)))
    match runPasses pol (2 * rows.length) (rows.map (prep drill_rate)) with
    | Except.error _ => (h2, Except.error ())
    | Except.ok (st, _) => (hset h2 outRef (DF.done (st.map finish)), Except.ok ())
  | _ => (h, Except.error ())

/-- The columns of a working row that the resolver never writes:
everything except `Start_parsed` and `End_parsed`. -/
structure Skel where
  holeID : String
  rig : String
  dep : String
  dur : FV
  pdepth : Option ℚ
  cur : ℚ
deriving DecidableEq

/-- Project a working row to its immutable columns. -/
def skOf (r : WRow) : Skel :=
  { holeID := r.holeID, rig := r.rig, dep := r.dep, dur := r.dur,
    pdepth := r.pdepth, cur := r.cur }

/-- Decides, from the immutable columns alone, that the dependency
branch of the loop body can never fire for the row at index `k`:
its dependency cell is blank, or names no row, or the first row of
that name sits on a different rig. -/
def noDepEffectB (sks : List Skel) (k : ℕ) : Bool :=
  match sks.get? k with
  | none => true
  | some s =>
    if s.dep = "" then true
    else
      match firstIdx (fun t => t.holeID == s.dep) sks with
      | none => true
      | some j =>
        match sks.get? j with
        | none => true
        | some t => decide (t.rig ≠ s.rig)

/-! ### List access lemmas -/

lemma listGetSetNe {α : Type} (l : List α) (a : α) :
    ∀ (i k : ℕ), i ≠ k → (l.set i a).get? k = l.get? k := by
  induction l with
  | nil => intro i k _; rfl
  | cons b bs ih =>
    intro i k hik
    cases i with
    | zero =>
      cases k with
      | zero => exact absurd rfl hik
      | succ k => rfl
    | succ i =>
      cases k with
      | zero => rfl
      | succ k => exact ih i k (fun h => hik (by omega))

lemma listGetSetSelf {α : Type} (l : List α) (a b : α) :
    ∀ (i : ℕ), l.get? i = some a → (l.set i b).get? i = some b := by
  induction l with
  | nil => intro i h; simp [List.get?] at h
  | cons c cs ih =>
    intro i h
    cases i with
    | zero => rfl
    | succ i => exact ih i h

lemma listGetMap {α β : Type} (f : α → β) (l : List α) :
    ∀ (k : ℕ), (l.map f).get? k = (l.get? k).map f := by
  induction l with
  | nil => intro k; rfl
  | cons a as ih =>
    intro k
    cases k with
    | zero => rfl
    | succ k => exact ih k

lemma listExtGet {α : Type} : ∀ (l₁ l₂ : List α),
    (∀ k, l₁.get? k = l₂.get? k) → l₁ = l₂ := by
  intro l₁
  induction l₁ with
  | nil =>
    intro l₂ h
    cases l₂ with
    | nil => rfl
    | cons b bs => exact absurd (h 0).symm (by simp)
  | cons a as ih =>
    intro l₂ h
    cases l₂ with
    | nil => exact absurd (h 0) (by simp)
    | cons b bs =>
      have h0 := h 0
      simp only [List.get?] at h0
      cases h0
      exact congrArg _ (ih bs fun k => h (k + 1))

lemma firstIdxMap {α β : Type} (f : α → β) (p : β → Bool) :
    ∀ (l : List α), firstIdx p (l.map f) = firstIdx (fun a => p (f a)) l := by
  intro l
  induction l with
  | nil => rfl
  | cons a as ih => simp only [List.map, firstIdx, ih]

/-! ### Concrete evaluation helpers -/

lemma round2_eval (q out : ℚ) (z : ℤ) (h1 : (z : ℚ) ≤ q * 100)
    (h3 : q * 100 - (z : ℚ) < 1 / 2) (hout : (z : ℚ) / 100 = out) : round2 q = out := by
  have hf : Int.floor (q * 100) = z := by
    rw [Int.floor_eq_iff]
    exact ⟨h1, by linarith⟩
  simp only [round2, roundHalfEven, hf]
  rw [if_pos (by exact h3)]
  exact hout

lemma durationFV_eval (p rate q : ℚ) (hrate : rate ≠ 0) (h : round2 (p / rate) = q) :
    durationFV (some p) rate = FV.num q := by
  simp [durationFV, hrate, h]

/-! ### Structure of one loop body execution -/

lemma depStep_spec (pol : Bool) (st : List WRow) (i : ℕ) (st' : List WRow) (ch : Bool)
    (h : depStep pol st i = Except.ok (st', ch)) :
    (st' = st ∧ ch = false) ∨
    ∃ row j depRow depEnd q,
      st.get? i = some row ∧ ¬(row.dep = "") ∧
      firstIdx (fun r => r.holeID == row.dep) st = some j ∧
      st.get? j = some depRow ∧ depRow.stop = some depEnd ∧
      row.rig = depRow.rig ∧ ¬(row.start = some (add_days depEnd 1 pol)) ∧
      row.dur = FV.num q ∧ ch = true ∧
      st' = st.set i
        { row with start := some (add_days depEnd 1 pol),
                   stop := some (add_days (add_days depEnd 1 pol) (Int.ceil q) pol) } := by
  unfold depStep at h
  split at h
  · simp only [Except.ok.injEq, Prod.mk.injEq] at h
    exact Or.inl ⟨h.1.symm, h.2.symm⟩
  · rename_i row heq
    split at h
    · simp only [Except.ok.injEq, Prod.mk.injEq] at h
      exact Or.inl ⟨h.1.symm, h.2.symm⟩
    · rename_i hdep
      split at h
      · simp only [Except.ok.injEq, Prod.mk.injEq] at h
        exact Or.inl ⟨h.1.symm, h.2.symm⟩
      · rename_i j hfi
        split at h
        · simp only [Except.ok.injEq, Prod.mk.injEq] at h
          exact Or.inl ⟨h.1.symm, h.2.symm⟩
        · rename_i depRow hgj
          split at h
          · simp only [Except.ok.injEq, Prod.mk.injEq] at h
            exact Or.inl ⟨h.1.symm, h.2.symm⟩
          · rename_i depEnd hstop
            split at h
            · rename_i hrig
              split at h
              · rename_i hst
                simp only [Except.ok.injEq, Prod.mk.injEq] at h
                exact Or.inl ⟨h.1.symm, h.2.symm⟩
              · rename_i hst
                split at h
                · rename_i q hdur
                  simp only [Except.ok.injEq, Prod.mk.injEq] at h
                  exact Or.inr ⟨row, j, depRow, depEnd, q, heq, hdep, hfi, hgj, hstop,
                    hrig, hst, hdur, h.2.symm, h.1.symm⟩
                · exact absurd h (by simp)
            · rename_i hrig
              simp only [Except.ok.injEq, Prod.mk.injEq] at h
              exact Or.inl ⟨h.1.symm, h.2.symm⟩

lemma fillEnd_skel (pol : Bool) (r r' : WRow) (h : fillEnd pol r = Except.ok r') :
    skOf r' = skOf r ∧ r'.start = r.start := by
  unfold fillEnd at h
  split at h
  · split at h
    · simp only [Except.ok.injEq] at h
      subst h
      exact ⟨rfl, rfl⟩
    · exact absurd h (by simp)
  · simp only [Except.ok.injEq] at h
    subst h
    exact ⟨rfl, rfl⟩

lemma fillEnd_stop (pol : Bool) (r r' : WRow) (h : fillEnd pol r = Except.ok r') :
    r'.stop = r.stop ∨
    (r.stop = none ∧ ∃ s q, r.start = some s ∧ r.dur = FV.num q ∧
      r'.stop = some (add_days s (Int.ceil q) pol)) := by
  unfold fillEnd at h
  split at h
  · rename_i s hs hnone
    split at h
    · rename_i q hq
      simp only [Except.ok.injEq] at h
      subst h
      exact Or.inr ⟨hnone, s, q, hs, hq, rfl⟩
    · exact absurd h (by simp)
  · simp only [Except.ok.injEq] at h
    subst h
    exact Or.inl rfl

/-! ### Preservation through the sweeps and the loop -/

lemma fillEnds_get2 (pol : Bool) : ∀ (st st' : List WRow), fillEnds pol st = Except.ok st' →
    ∀ k, (st.get? k = none ∧ st'.get? k = none) ∨
      (∃ r r', st.get? k = some r ∧ st'.get? k = some r' ∧ fillEnd pol r = Except.ok r') := by
  intro st
  induction st with
  | nil =>
    intro st' h k
    unfold fillEnds at h
    simp only [Except.ok.injEq] at h
    subst h
    exact Or.inl ⟨rfl, rfl⟩
  | cons r rs ih =>
    intro st' h k
    unfold fillEnds at h
    split at h
    · exact absurd h (by simp)
    · rename_i r' hr
      split at h
      · exact absurd h (by simp)
      · rename_i rs' hrs
        simp only [Except.ok.injEq] at h
        subst h
        cases k with
        | zero => exact Or.inr ⟨r, r', rfl, rfl, hr⟩
        | succ k => exact ih rs' hrs k

lemma fillEnds_skel (pol : Bool) (st st' : List WRow) (h : fillEnds pol st = Except.ok st') :
    st'.map skOf = st.map skOf := by
  apply listExtGet
  intro k
  rw [listGetMap, listGetMap]
  rcases fillEnds_get2 pol st st' h k with ⟨h1, h2⟩ | ⟨r, r', h1, h2, hf⟩
  · rw [h1, h2]
  · rw [h1, h2]
    exact congrArg some (fillEnd_skel pol r r' hf).1

lemma fillEnds_start (pol : Bool) (st st' : List WRow) (h : fillEnds pol st = Except.ok st')
    (k : ℕ) : (st'.get? k).map WRow.start = (st.get? k).map WRow.start := by
  rcases fillEnds_get2 pol st st' h k with ⟨h1, h2⟩ | ⟨r, r', h1, h2, hf⟩
  · rw [h1, h2]
  · rw [h1, h2]
    exact congrArg some (fillEnd_skel pol r r' hf).2

lemma depStep_skel (pol : Bool) (st : List WRow) (i : ℕ) (st' : List WRow) (ch : Bool)
    (h : depStep pol st i = Except.ok (st', ch)) : st'.map skOf = st.map skOf := by
  rcases depStep_spec pol st i st' ch h with ⟨h1, _⟩ |
    ⟨row, j, depRow, depEnd, q, hrow, _, _, _, _, _, _, _, _, hset'⟩
  · rw [h1]
  · subst hset'
    apply listExtGet
    intro k
    rw [listGetMap, listGetMap]
    by_cases hik : i = k
    · subst hik
      rw [listGetSetSelf st row _ i hrow, hrow]
      rfl
    · rw [listGetSetNe st _ i k hik]

lemma depStep_start_nde (pol : Bool) (st : List WRow) (i : ℕ) (st' : List WRow) (ch : Bool)
    (k : ℕ) (hnde : noDepEffectB (st.map skOf) k = true)
    (h : depStep pol st i = Except.ok (st', ch)) : st'.get? k = st.get? k := by
  rcases depStep_spec pol st i st' ch h with ⟨h1, _⟩ |
    ⟨row, j, depRow, depEnd, q, hrow, hdep, hfi, hgj, hstop, hrig, hst, hdur, _, hset'⟩
  · rw [h1]
  · subst hset'
    by_cases hik : i = k
    · exfalso
      subst hik
      have hm : (st.map skOf).get? i = some (skOf row) := by
        rw [listGetMap, hrow]
        rfl
      unfold noDepEffectB at hnde
      simp only [hm] at hnde
      have hdep2 : ¬((skOf row).dep = "") := hdep
      rw [if_neg hdep2] at hnde
      have hfi' : firstIdx (fun t => t.holeID == (skOf row).dep) (st.map skOf) = some j := by
        rw [firstIdxMap]
        exact hfi
      simp only [hfi'] at hnde
      have hgj' : (st.map skOf).get? j = some (skOf depRow) := by
        rw [listGetMap, hgj]
        rfl
      simp only [hgj'] at hnde
      exact (of_decide_eq_true hnde) hrig.symm
    · exact listGetSetNe st _ i k hik

lemma depStep_pred (pol : Bool) (P : WRow → Prop)
    (hWrite : ∀ (row : WRow) (depEnd : ℤ) (q : ℚ), row.dur = FV.num q →
      P { row with start := some (add_days depEnd 1 pol),
                   stop := some (add_days (add_days depEnd 1 pol) (Int.ceil q) pol) })
    (st : List WRow) (i : ℕ) (st' : List WRow) (ch : Bool) (k : ℕ)
    (h : depStep pol st i = Except.ok (st', ch))
    (hp : ∀ r, st.get? k = some r → P r) : ∀ r, st'.get? k = some r → P r := by
  rcases depStep_spec pol st i st' ch h with ⟨h1, _⟩ |
    ⟨row, j, depRow, depEnd, q, hrow, _, _, _, _, _, _, hdur, _, hset'⟩
  · rw [h1]
    exact hp
  · subst hset'
    intro r hr
    by_cases hik : i = k
    · subst hik
      rw [listGetSetSelf st row _ i hrow] at hr
      cases hr
      exact hWrite row depEnd q hdur
    · rw [listGetSetNe st _ i k hik] at hr
      exact hp r hr

lemma depPassGo_nde (pol : Bool) : ∀ (idxs : List ℕ) (st : List WRow) (b : Bool)
    (st' : List WRow) (ch : Bool) (k : ℕ),
    depPassGo pol idxs st b = Except.ok (st', ch) →
    noDepEffectB (st.map skOf) k = true → st'.get? k = st.get? k := by
  intro idxs
  induction idxs with
  | nil =>
    intro st b st' ch k h hnde
    unfold depPassGo at h
    simp only [Except.ok.injEq, Prod.mk.injEq] at h
    rw [← h.1]
  | cons i rest ih =>
    intro st b st' ch k h hnde
    unfold depPassGo at h
    split at h
    · exact absurd h (by simp)
    · rename_i st1 ch1 heq
      have hskel := depStep_skel pol st i st1 ch1 heq
      have h1 := depStep_start_nde pol st i st1 ch1 k hnde heq
      have hnde1 : noDepEffectB (st1.map skOf) k = true := by
        rw [hskel]
        exact hnde
      rw [ih st1 _ st' ch k h hnde1, h1]

lemma depPassGo_skel (pol : Bool) : ∀ (idxs : List ℕ) (st : List WRow) (b : Bool)
    (st' : List WRow) (ch : Bool),
    depPassGo pol idxs st b = Except.ok (st', ch) → st'.map skOf = st.map skOf := by
  intro idxs
  induction idxs with
  | nil =>
    intro st b st' ch h
    unfold depPassGo at h
    simp only [Except.ok.injEq, Prod.mk.injEq] at h
    rw [← h.1]
  | cons i rest ih =>
    intro st b st' ch h
    unfold depPassGo at h
    split at h
    · exact absurd h (by simp)
    · rename_i st1 ch1 heq
      rw [ih st1 _ st' ch h, depStep_skel pol st i st1 ch1 heq]

lemma depPassGo_pred (pol : Bool) (P : WRow → Prop)
    (hWrite : ∀ (row : WRow) (depEnd : ℤ) (q : ℚ), row.dur = FV.num q →
      P { row with start := some (add_days depEnd 1 pol),
                   stop := some (add_days (add_days depEnd 1 pol) (Int.ceil q) pol) }) :
    ∀ (idxs : List ℕ) (st : List WRow) (b : Bool) (st' : List WRow) (ch : Bool) (k : ℕ),
    depPassGo pol idxs st b = Except.ok (st', ch) →
    (∀ r, st.get? k = some r → P r) → ∀ r, st'.get? k = some r → P r := by
  intro idxs
  induction idxs with
  | nil =>
    intro st b st' ch k h hp
    unfold depPassGo at h
    simp only [Except.ok.injEq, Prod.mk.injEq] at h
    rw [← h.1]
    exact hp
  | cons i rest ih =>
    intro st b st' ch k h hp
    unfold depPassGo at h
    split at h
    · exact absurd h (by simp)
    · rename_i st1 ch1 heq
      exact ih st1 _ st' ch k h (depStep_pred pol P hWrite st i st1 ch1 k heq hp)

lemma depLoop_nde (pol : Bool) : ∀ (fuel : ℕ) (st st' : List WRow) (n k : ℕ),
    depLoop pol fuel st = Except.ok (st', n) →
    noDepEffectB (st.map skOf) k = true → st'.get? k = st.get? k := by
  intro fuel
  induction fuel with
  | zero =>
    intro st st' n k h _
    unfold depLoop at h
    simp only [Except.ok.injEq, Prod.mk.injEq] at h
    rw [← h.1]
  | succ fuel ih =>
    intro st st' n k h hnde
    unfold depLoop at h
    split at h
    · exact absurd h (by simp)
    · rename_i st1 ch1 heq
      split at h
      · split at h
        · exact absurd h (by simp)
        · rename_i st2 n2 heq2
          simp only [Except.ok.injEq, Prod.mk.injEq] at h
          have h1 := depPassGo_nde pol _ st false st1 ch1 k heq hnde
          have hskel := depPassGo_skel pol _ st false st1 ch1 heq
          have hnde1 : noDepEffectB (st1.map skOf) k = true := by
            rw [hskel]
            exact hnde
          rw [← h.1, ih st1 st2 n2 k heq2 hnde1, h1]
      · simp only [Except.ok.injEq, Prod.mk.injEq] at h
        rw [← h.1]
        exact depPassGo_nde pol _ st false st1 ch1 k heq hnde

lemma depLoop_skel (pol : Bool) : ∀ (fuel : ℕ) (st st' : List WRow) (n : ℕ),
    depLoop pol fuel st = Except.ok (st', n) → st'.map skOf = st.map skOf := by
  intro fuel
  induction fuel with
  | zero =>
    intro st st' n h
    unfold depLoop at h
    simp only [Except.ok.injEq, Prod.mk.injEq] at h
    rw [← h.1]
  | succ fuel ih =>
    intro st st' n h
    unfold depLoop at h
    split at h
    · exact absurd h (by simp)
    · rename_i st1 ch1 heq
      split at h
      · split at h
        · exact absurd h (by simp)
        · rename_i st2 n2 heq2
          simp only [Except.ok.injEq, Prod.mk.injEq] at h
          rw [← h.1, ih st1 st2 n2 heq2, depPassGo_skel pol _ st false st1 ch1 heq]
      · simp only [Except.ok.injEq, Prod.mk.injEq] at h
        rw [← h.1]
        exact depPassGo_skel pol _ st false st1 ch1 heq

lemma depLoop_pred (pol : Bool) (P : WRow → Prop)
    (hWrite : ∀ (row : WRow) (depEnd : ℤ) (q : ℚ), row.dur = FV.num q →
      P { row with start := some (add_days depEnd 1 pol),
                   stop := some (add_days (add_days depEnd 1 pol) (Int.ceil q) pol) }) :
    ∀ (fuel : ℕ) (st st' : List WRow) (n k : ℕ),
    depLoop pol fuel st = Except.ok (st', n) →
    (∀ r, st.get? k = some r → P r) → ∀ r, st'.get? k = some r → P r := by
  intro fuel
  induction fuel with
  | zero =>
    intro st st' n k h hp
    unfold depLoop at h
    simp only [Except.ok.injEq, Prod.mk.injEq] at h
    rw [← h.1]
    exact hp
  | succ fuel ih =>
    intro st st' n k h hp
    unfold depLoop at h
    split at h
    · exact absurd h (by simp)
    · rename_i st1 ch1 heq
      split at h
      · split at h
        · exact absurd h (by simp)
        · rename_i st2 n2 heq2
          simp only [Except.ok.injEq, Prod.mk.injEq] at h
          rw [← h.1]
          exact ih st1 st2 n2 k heq2 (depPassGo_pred pol P hWrite _ st false st1 ch1 k heq hp)
      · simp only [Except.ok.injEq, Prod.mk.injEq] at h
        rw [← h.1]
        exact depPassGo_pred pol P hWrite _ st false st1 ch1 k heq hp

lemma depLoop_count (pol : Bool) : ∀ (fuel : ℕ) (st st' : List WRow) (n : ℕ),
    depLoop pol fuel st = Except.ok (st', n) → n ≤ fuel := by
  intro fuel
  induction fuel with
  | zero =>
    intro st st' n h
    unfold depLoop at h
    simp only [Except.ok.injEq, Prod.mk.injEq] at h
    omega
  | succ fuel ih =>
    intro st st' n h
    unfold depLoop at h
    split at h
    · exact absurd h (by simp)
    · rename_i st1 ch1 heq
      split at h
      · split at h
        · exact absurd h (by simp)
        · rename_i st2 n2 heq2
          simp only [Except.ok.injEq, Prod.mk.injEq] at h
          have := ih st1 st2 n2 heq2
          omega
      · simp only [Except.ok.injEq, Prod.mk.injEq] at h
        omega

lemma depLoop_early (pol : Bool) (fuel : ℕ) (st st' : List WRow)
    (h : depPass pol st = Except.ok (st', false)) :
    depLoop pol (fuel + 1) st = Except.ok (st', 1) := by
  unfold depLoop
  rw [h]
  rfl

lemma fillEnds_pred (pol : Bool) (P : WRow → Prop)
    (hFill : ∀ r r', fillEnd pol r = Except.ok r' → P r → P r')
    (st st' : List WRow) (h : fillEnds pol st = Except.ok st') (k : ℕ)
    (hp : ∀ r, st.get? k = some r → P r) : ∀ r, st'.get? k = some r → P r := by
  intro r' hr'
  rcases fillEnds_get2 pol st st' h k with ⟨_, h2⟩ | ⟨r0, r1, h1, h2, hf⟩
  · rw [h2] at hr'
    exact absurd hr' (by simp)
  · rw [h2] at hr'
    cases hr'
    exact hFill r0 r' hf (hp r0 h1)

lemma fillEnd_defined (pol : Bool) (r r' : WRow) (s : ℤ) (q : ℚ)
    (h : fillEnd pol r = Except.ok r') (hs : r'.start = some s) (hq : r'.dur = FV.num q) :
    r'.stop.isSome := by
  have hsk := fillEnd_skel pol r r' h
  unfold fillEnd at h
  split at h
  · rename_i s0 hs0 hnone0
    split at h
    · simp only [Except.ok.injEq] at h
      subst h
      rfl
    · exact absurd h (by simp)
  · rename_i hno
    simp only [Except.ok.injEq] at h
    subst h
    cases hstop : r.stop with
    | some e => rfl
    | none => exact absurd hstop (by have := hno s hs; intro hc; exact this hc)

lemma computeFull_ok (rows : List Row) (rate : ℚ) (pol : Bool) (out : List ORow) (k : ℕ)
    (h : compute_table_logic_full rows rate pol = Except.ok (out, k)) :
    ∃ st1 st2 st3,
      fillEnds pol (rows.map (prep rate)) = Except.ok st1 ∧
      depLoop pol (2 * rows.length) st1 = Except.ok (st2, k) ∧
      fillEnds pol st2 = Except.ok st3 ∧ out = st3.map finish := by
  unfold compute_table_logic_full runPasses at h
  cases h1 : fillEnds pol (rows.map (prep rate)) with
  | error e => rw [h1] at h; exact absurd h (by simp)
  | ok st1 =>
    simp only [h1] at h
    cases h2 : depLoop pol (2 * rows.length) st1 with
    | error e => rw [h2] at h; exact absurd h (by simp)
    | ok p =>
      obtain ⟨st2, k2⟩ := p
      simp only [h2] at h
      cases h3 : fillEnds pol st2 with
      | error e => rw [h3] at h; exact absurd h (by simp)
      | ok st3 =>
        simp only [h3, Except.ok.injEq, Prod.mk.injEq] at h
        obtain ⟨hout, hk⟩ := h
        subst hk
        exact ⟨st1, st2, st3, rfl, h2, h3, hout.symm⟩

lemma compute_ok (rows : List Row) (rate : ℚ) (pol : Bool) (out : List ORow)
    (h : compute_table_logic rows rate pol = Except.ok out) :
    ∃ st1 st2 st3 k,
      fillEnds pol (rows.map (prep rate)) = Except.ok st1 ∧
      depLoop pol (2 * rows.length) st1 = Except.ok (st2, k) ∧
      fillEnds pol st2 = Except.ok st3 ∧ out = st3.map finish := by
  unfold compute_table_logic at h
  cases hf : compute_table_logic_full rows rate pol with
  | error e => rw [hf] at h; exact absurd h (by simp)
  | ok p =>
    obtain ⟨out0, k⟩ := p
    simp only [hf, Except.ok.injEq] at h
    subst h
    obtain ⟨st1, st2, st3, h1, h2, h3, hout⟩ := computeFull_ok rows rate pol out0 k hf
    exact ⟨st1, st2, st3, k, h1, h2, h3, hout⟩

/-! ### Bounds for the rounding used by `Progress` -/

lemma roundHalfEven_nonneg (q : ℚ) (h : 0 ≤ q) : 0 ≤ roundHalfEven q := by
  have h0 : (0 : ℤ) ≤ Int.floor q := Int.floor_nonneg.mpr h
  simp only [roundHalfEven]
  split_ifs <;> omega

lemma roundHalfEven_le (q : ℚ) (B : ℤ) (h : q ≤ (B : ℚ)) : roundHalfEven q ≤ B := by
  have hfl : Int.floor q ≤ B := by
    have := Int.floor_le_floor h
    rwa [Int.floor_intCast] at this
  simp only [roundHalfEven]
  split_ifs with h1 h2 h3
  · exact hfl
  · have hlt : (Int.floor q : ℚ) < q := by linarith
    have : Int.floor q < B := by
      by_contra hc
      push_neg at hc
      have : (B : ℚ) ≤ (Int.floor q : ℚ) := by exact_mod_cast hc
      linarith
    omega
  · exact hfl
  · have hlt : (Int.floor q : ℚ) < q := by
      have : ¬(q - (Int.floor q : ℚ) < 1 / 2) := h1
      push_neg at this
      linarith
    have : Int.floor q < B := by
      by_contra hc
      push_neg at hc
      have : (B : ℚ) ≤ (Int.floor q : ℚ) := by exact_mod_cast hc
      linarith
    omega

lemma round2_bounds (q : ℚ) (h0 : 0 ≤ q) (h1 : q ≤ 100) :
    0 ≤ round2 q ∧ round2 q ≤ 100 := by
  have a : 0 ≤ roundHalfEven (q * 100) := roundHalfEven_nonneg _ (by positivity)
  have b : roundHalfEven (q * 100) ≤ 10000 := by
    apply roundHalfEven_le
    push_cast
    linarith
  unfold round2
  constructor
  · apply div_nonneg _ (by norm_num)
    exact_mod_cast a
  · rw [div_le_iff₀ (by norm_num)]
    have : (roundHalfEven (q * 100) : ℚ) ≤ 10000 := by exact_mod_cast b
    linarith

/-! ### Business day arithmetic -/

lemma nextBusiness_weekday (d : ℤ) : 0 ≤ nextBusiness d % 7 ∧ nextBusiness d % 7 < 5 := by
  unfold nextBusiness
  split_ifs <;> omega

lemma addBusinessDays_weekday : ∀ (n : ℕ) (d : ℤ), addBusinessDays d (n + 1) % 7 < 5
  | 0, d => by
    simpa [addBusinessDays] using (nextBusiness_weekday d).2
  | k + 1, d => by
    have : addBusinessDays d (k + 2) = addBusinessDays (nextBusiness d) (k + 1) := rfl
    rw [this]
    exact addBusinessDays_weekday k (nextBusiness d)

lemma nextBusiness_of_lt (d : ℤ) (h : d % 7 < 4) : nextBusiness d = d + 1 := by
  have h0 : 0 ≤ d % 7 := Int.emod_nonneg d (by norm_num)
  unfold nextBusiness
  split_ifs <;> omega

lemma nextBusiness_friday (d : ℤ) (h : d % 7 = 4) : nextBusiness d = d + 3 := by
  unfold nextBusiness
  split_ifs <;> omega

/-! ### Claim theorems -/

/-- C9: under the business-day policy, `add_days` counts only
Monday-to-Friday landing days and never lands on a weekend for
`n >= 1`; advancing 1 business day from any Friday (weekday 4) yields
the following Monday (3 calendar days later, weekday 0); advancing 4
business days from a Monday yields the Friday of the same week; and
advancing 0 units returns the input date unchanged under either
policy. -/
theorem C9_business_day_advance :
    (∀ (d n : ℤ), 1 ≤ n → add_days d n true % 7 < 5) ∧
    (∀ d : ℤ, d % 7 = 4 → add_days d 1 true = d + 3 ∧ (d + 3) % 7 = 0) ∧
    (∀ d : ℤ, d % 7 = 0 → add_days d 4 true = d + 4 ∧ (d + 4) % 7 = 4) ∧
    (∀ d : ℤ, add_days d 0 true = d ∧ add_days d 0 false = d) := by
  refine ⟨?_, ?_, ?_, ?_⟩
  · intro d n hn
    unfold add_days
    rw [if_pos rfl]
    obtain ⟨m, hm⟩ : ∃ m, n.toNat = m + 1 := ⟨n.toNat - 1, by omega⟩
    rw [hm]
    exact addBusinessDays_weekday m d
  · intro d hd
    refine ⟨?_, by omega⟩
    unfold add_days
    rw [if_pos rfl]
    show addBusinessDays (nextBusiness d) 0 = d + 3
    rw [addBusinessDays]
    exact nextBusiness_friday d hd
  · intro d hd
    refine ⟨?_, by omega⟩
    unfold add_days
    rw [if_pos rfl]
    have h1 : nextBusiness d = d + 1 := nextBusiness_of_lt d (by omega)
    have h2 : nextBusiness (d + 1) = d + 1 + 1 := nextBusiness_of_lt (d + 1) (by omega)
    have h3 : nextBusiness (d + 1 + 1) = d + 1 + 1 + 1 := nextBusiness_of_lt (d + 1 + 1) (by omega)
    have h4 : nextBusiness (d + 1 + 1 + 1) = d + 1 + 1 + 1 + 1 :=
      nextBusiness_of_lt (d + 1 + 1 + 1) (by omega)
    show addBusinessDays d 4 = d + 4
    simp only [addBusinessDays, h1, h2, h3, h4]
    ring
  · intro d
    exact ⟨rfl, by simp [add_days]⟩

/-- C9 witness: the theorem instantiated at concrete dates, with day 0
a Monday: Thursday day 3 plus 2 business days is a weekday; Friday
day 4 plus 1 business day is Monday day 7; Monday day 0 plus 4
business days is Friday day 4; day 9 plus 0 is unchanged. -/
theorem C9_business_day_advance_witness :
    add_days 3 2 true % 7 < 5 ∧
    add_days 4 1 true = 4 + 3 ∧
    add_days 0 4 true = 0 + 4 ∧
    add_days 9 0 true = 9 ∧ add_days 9 0 false = 9 :=
  ⟨C9_business_day_advance.1 3 2 (by norm_num),
   (C9_business_day_advance.2.1 4 (by decide)).1,
   (C9_business_day_advance.2.2.1 0 (by decide)).1,
   (C9_business_day_advance.2.2.2 9).1,
   (C9_business_day_advance.2.2.2 9).2⟩

/-- C10: `compute_table_logic` does not mutate its input dataframe.
At the object level, line 79 copies the caller's frame to a fresh
reference and every write of the resolution targets that copy, so
after the call the caller's reference still holds the original rows,
and the returned object (at the fresh reference) holds exactly the
value the pure resolution computes. -/
theorem C10_no_input_mutation (h : Heap) (inRef outRef : ℕ) (rate : ℚ) (pol : Bool)
    (hne : inRef ≠ outRef) :
    (compute_table_logic_heap h inRef outRef rate pol).1 inRef = h inRef ∧
    (∀ (rows : List Row) (out : List ORow), h inRef = DF.input rows →
      compute_table_logic rows rate pol = Except.ok out →
      (compute_table_logic_heap h inRef outRef rate pol).1 outRef = DF.done out) := by
  constructor
  · unfold compute_table_logic_heap
    cases hin : h inRef with
    | input rows =>
      cases hrp : runPasses pol (2 * rows.length) (rows.map (prep rate)) with
      | error e => simp [hrp, hset, hne]; exact hin
      | ok p =>
        obtain ⟨st, k⟩ := p
        simp [hrp, hset, hne]
        exact hin
    | working st => exact hin
    | done r => exact hin
  · intro rows out hin hrun
    unfold compute_table_logic compute_table_logic_full at hrun
    cases hrp : runPasses pol (2 * rows.length) (rows.map (prep rate)) with
    | error e => rw [hrp] at hrun; exact absurd hrun (by simp)
    | ok p =>
      obtain ⟨st, k⟩ := p
      simp only [hrp, Except.ok.injEq] at hrun
      unfold compute_table_logic_heap
      rw [hin]
      simp [hrp, hset, hrun]

/-- C10 witness: the theorem applied to a concrete store holding an
empty table at reference 0, with the copy at reference 1. -/
theorem C10_no_input_mutation_witness :
    (compute_table_logic_heap (fun _ => DF.input []) 0 1 10 false).1 0 = DF.input [] ∧
    (compute_table_logic_heap (fun _ => DF.input []) 0 1 10 false).1 1 = DF.done [] :=
  ⟨(C10_no_input_mutation (fun _ => DF.input []) 0 1 10 false (by decide)).1,
   (C10_no_input_mutation (fun _ => DF.input []) 0 1 10 false (by decide)).2 [] [] rfl rfl⟩

lemma nde_of_dep_empty (sks : List Skel) (k : ℕ) (s : Skel)
    (hs : sks.get? k = some s) (hd : s.dep = "") : noDepEffectB sks k = true := by
  unfold noDepEffectB
  simp only [hs]
  rw [if_pos hd]

lemma nde_of_rig_mismatch (sks : List Skel) (k : ℕ) (s : Skel) (j : ℕ) (t : Skel)
    (hs : sks.get? k = some s)
    (hfi : firstIdx (fun u => u.holeID == s.dep) sks = some j)
    (ht : sks.get? j = some t) (hr : t.rig ≠ s.rig) : noDepEffectB sks k = true := by
  unfold noDepEffectB
  simp only [hs]
  by_cases hd : s.dep = ""
  · rw [if_pos hd]
  · rw [if_neg hd]
    simp only [hfi, ht]
    exact decide_eq_true hr

/-- A row whose dependency can never fire keeps its parsed input start
date through the whole resolution: the two end-filling sweeps write
only `End_parsed`, and the loop body is the only writer of
`Start_parsed`. -/
lemma run_start_preserved (rows : List Row) (rate : ℚ) (pol : Bool) (out : List ORow)
    (k : ℕ) (r : Row)
    (hrun : compute_table_logic rows rate pol = Except.ok out)
    (hrow : rows.get? k = some r)
    (hnde : noDepEffectB ((rows.map (prep rate)).map skOf) k = true) :
    (out.get? k).map ORow.start = some r.startDate := by
  obtain ⟨st1, st2, st3, n, h1, h2, h3, hout⟩ := compute_ok rows rate pol out hrun
  have h0 : (rows.map (prep rate)).get? k = some (prep rate r) := by
    rw [listGetMap, hrow]
    rfl
  have hsk1 : st1.map skOf = (rows.map (prep rate)).map skOf := fillEnds_skel pol _ st1 h1
  have hnde1 : noDepEffectB (st1.map skOf) k = true := by
    rw [hsk1]
    exact hnde
  have e1 : (st1.get? k).map WRow.start = ((rows.map (prep rate)).get? k).map WRow.start :=
    fillEnds_start pol _ st1 h1 k
  have e2 : st2.get? k = st1.get? k := depLoop_nde pol _ st1 st2 n k h2 hnde1
  have e3 : (st3.get? k).map WRow.start = (st2.get? k).map WRow.start :=
    fillEnds_start pol st2 st3 h3 k
  have e4 : (out.get? k).map ORow.start = (st3.get? k).map WRow.start := by
    rw [hout, listGetMap]
    cases st3.get? k <;> rfl
  rw [e4, e3, e2, e1, h0]
  rfl

/-- C1 (amended): a task's user-supplied start date is kept only when
its dependency branch cannot fire (blank dependency, no matching
predecessor by first-match lookup, or a predecessor on a different
rig); when a same-rig dependency resolves, the loop body at lines 122
to 123 overwrites even a user-supplied start with the
dependency-derived value. -/
theorem C1_manual_start_preserved (rows : List Row) (rate : ℚ) (pol : Bool)
    (out : List ORow) (k : ℕ) (r : Row) (s : ℤ)
    (hrun : compute_table_logic rows rate pol = Except.ok out)
    (hrow : rows.get? k = some r) (hstart : r.startDate = some s)
    (hnde : noDepEffectB ((rows.map (prep rate)).map skOf) k = true) :
    (out.get? k).map ORow.start = some (some s) := by
  rw [run_start_preserved rows rate pol out k r hrun hrow hnde, hstart]

/-- C1 witness: a lone task with a manual start, both dates supplied
and a blank dependency keeps its start date. -/
theorem C1_manual_start_preserved_witness :
    (([⟨"W", "", "", FV.nan, some 7, some 9, progressOf none 0⟩] : List ORow).get? 0).map
      ORow.start = some (some 7) :=
  C1_manual_start_preserved [⟨"W", some 7, some 9, none, "", some 0, ""⟩] 10 false
    [⟨"W", "", "", FV.nan, some 7, some 9, progressOf none 0⟩] 0
    ⟨"W", some 7, some 9, none, "", some 0, ""⟩ 7 rfl rfl rfl rfl

/-- C2 (amended): `compute_table_logic` performs no same-rig
sequencing fallback.  A task whose `Dependency` cell is blank ends the
call with exactly its parsed input start date; in particular a task
with no start date and a non-empty rig stays unresolved no matter
which same-rig tasks precede it in input order. -/
theorem C2_no_sequencing_fallback (rows : List Row) (rate : ℚ) (pol : Bool)
    (out : List ORow) (k : ℕ) (r : Row)
    (hrun : compute_table_logic rows rate pol = Except.ok out)
    (hrow : rows.get? k = some r) (hdep : pyStrip r.dependency = "") :
    (out.get? k).map ORow.start = some r.startDate := by
  apply run_start_preserved rows rate pol out k r hrun hrow
  apply nde_of_dep_empty _ _ (skOf (prep rate r))
  · rw [listGetMap, listGetMap, hrow]
    rfl
  · exact hdep

/-- C2 witness: a task on rig `R1` with no dependency and no start
date stays unresolved. -/
theorem C2_no_sequencing_fallback_witness :
    (([⟨"W", "R1", "", FV.nan, none, none, progressOf none 0⟩] : List ORow).get? 0).map
      ORow.start = some none :=
  C2_no_sequencing_fallback [⟨"W", none, none, none, "R1", some 0, ""⟩] 10 false
    [⟨"W", "R1", "", FV.nan, none, none, progressOf none 0⟩] 0
    ⟨"W", none, none, none, "R1", some 0, ""⟩ rfl rfl rfl

/-- C7 (amended): a dependency whose first-match predecessor sits on a
different rig label never changes the dependent task's start date,
regardless of the predecessor's resolution.  (The two-sided
non-emptiness requirement of the claim is not in the code: the branch
compares the rig labels only, so two blank-rig tasks do sequence.) -/
theorem C7_cross_rig_dependency_no_effect (rows : List Row) (rate : ℚ) (pol : Bool)
    (out : List ORow) (k : ℕ) (r : Row) (j : ℕ) (t : Skel)
    (hrun : compute_table_logic rows rate pol = Except.ok out)
    (hrow : rows.get? k = some r)
    (hfi : firstIdx (fun u => u.holeID == pyStrip r.dependency)
      ((rows.map (prep rate)).map skOf) = some j)
    (ht : ((rows.map (prep rate)).map skOf).get? j = some t)
    (hr : t.rig ≠ r.rig) :
    (out.get? k).map ORow.start = some r.startDate := by
  apply run_start_preserved rows rate pol out k r hrun hrow
  apply nde_of_rig_mismatch _ _ (skOf (prep rate r)) j t
  · rw [listGetMap, listGetMap, hrow]
    rfl
  · exact hfi
  · exact ht
  · exact hr

/-- C7 witness: task B on rig R2 depends on a resolved task A on rig
R1; B's start stays unresolved. -/
theorem C7_cross_rig_dependency_no_effect_witness :
    (([⟨"A", "R1", "", FV.nan, some 7, some 9, progressOf none 0⟩,
       ⟨"B", "R2", "A", FV.nan, none, none, progressOf none 0⟩] : List ORow).get? 1).map
      ORow.start = some none :=
  C7_cross_rig_dependency_no_effect
    [⟨"A", some 7, some 9, none, "R1", some 0, ""⟩,
     ⟨"B", none, none, none, "R2", some 0, "A"⟩] 10 false
    [⟨"A", "R1", "", FV.nan, some 7, some 9, progressOf none 0⟩,
     ⟨"B", "R2", "A", FV.nan, none, none, progressOf none 0⟩] 1
    ⟨"B", none, none, none, "R2", some 0, "A"⟩ 0
    ⟨"A", "R1", "", FV.nan, none, 0⟩ rfl rfl rfl rfl (by decide)

/-- A concrete run used by witnesses: one task with start day 7, an
empty end cell and planned depth 0; its end date is computed from its
start date. -/
lemma depth0_run :
    compute_table_logic [⟨"W", some 7, none, some 0, "R1", some 0, ""⟩] 10 false
      = Except.ok [⟨"W", "R1", "", FV.num 0, some 7,
          some (add_days 7 (Int.ceil (0 : ℚ)) false), progressOf (some 0) 0⟩] := by
  have hd : durationFV (some (0 : ℚ)) 10 = FV.num 0 :=
    durationFV_eval _ _ _ (by norm_num)
      (round2_eval _ 0 0 (by norm_num) (by norm_num) (by norm_num))
  have hprep : ([⟨"W", some 7, none, some 0, "R1", some 0, ""⟩] : List Row).map (prep 10)
      = [⟨"W", "R1", "", FV.num 0, some 0, 0, some 7, none⟩] := by
    simp only [List.map_cons, List.map_nil, prep, hd]
    rfl
  unfold compute_table_logic compute_table_logic_full
  rw [show ([⟨"W", some 7, none, some 0, "R1", some 0, ""⟩] : List Row).map (prep 10)
    = [⟨"W", "R1", "", FV.num 0, some 0, 0, some 7, none⟩] from hprep]
  rfl

/-- C5 (amended): the resolver never creates an end date without a
start date: for a row whose input end cell is empty, an end date in
the output implies a start date in the output.  (An externally
supplied end date, however, is kept even when the row has no start.) -/
theorem C5_no_created_end_without_start (rows : List Row) (rate : ℚ) (pol : Bool)
    (out : List ORow) (k : ℕ) (r : Row) (o : ORow)
    (hrun : compute_table_logic rows rate pol = Except.ok out)
    (hrow : rows.get? k = some r) (hend : r.endDate = none)
    (hok : out.get? k = some o) (hstop : o.stop.isSome) : o.start.isSome := by
  obtain ⟨st1, st2, st3, n, h1, h2, h3, hout⟩ := compute_ok rows rate pol out hrun
  have hFill : ∀ a b, fillEnd pol a = Except.ok b →
      (a.stop.isSome → a.start.isSome) → (b.stop.isSome → b.start.isSome) := by
    intro a b hf hp hs
    have hsk := fillEnd_skel pol a b hf
    rcases fillEnd_stop pol a b hf with he | ⟨_, s0, q0, hs0, _, _⟩
    · rw [hsk.2]
      apply hp
      rw [← he]
      exact hs
    · rw [hsk.2, hs0]
      rfl
  have hW : ∀ (row : WRow) (depEnd : ℤ) (q : ℚ), row.dur = FV.num q →
      (fun w : WRow => (w.stop.isSome → w.start.isSome))
        { row with start := some (add_days depEnd 1 pol),
                   stop := some (add_days (add_days depEnd 1 pol) (Int.ceil q) pol) } :=
    fun _ _ _ _ _ => rfl
  have hp0 : ∀ w, (rows.map (prep rate)).get? k = some w → (w.stop.isSome → w.start.isSome) := by
    intro w hw
    rw [listGetMap, hrow] at hw
    simp only [Option.map] at hw
    cases hw
    intro hs
    exfalso
    have : (prep rate r).stop = none := hend
    rw [this] at hs
    exact absurd hs (by simp)
  have hp1 := fillEnds_pred pol _ hFill _ st1 h1 k hp0
  have hp2 := depLoop_pred pol _ hW (2 * rows.length) st1 st2 n k h2 hp1
  have hp3 := fillEnds_pred pol _ hFill st2 st3 h3 k hp2
  have hw : ∃ w, st3.get? k = some w ∧ finish w = o := by
    rw [hout, listGetMap] at hok
    cases hg : st3.get? k with
    | none => rw [hg] at hok; exact absurd hok (by simp)
    | some w =>
      rw [hg] at hok
      simp only [Option.map] at hok
      cases hok
      exact ⟨w, rfl, rfl⟩
  obtain ⟨w, hg, hfw⟩ := hw
  have := hp3 w hg
  rw [← hfw] at hstop ⊢
  exact this hstop

/-- C5 witness: a lone task with a start date, an empty end cell and
planned depth 0: its computed end date comes with its start date. -/
theorem C5_no_created_end_without_start_witness :
    (⟨"W", "R1", "", FV.num 0, some 7, some (add_days 7 (Int.ceil (0 : ℚ)) false),
      progressOf (some 0) 0⟩ : ORow).start.isSome :=
  C5_no_created_end_without_start [⟨"W", some 7, none, some 0, "R1", some 0, ""⟩] 10 false
    [⟨"W", "R1", "", FV.num 0, some 7, some (add_days 7 (Int.ceil (0 : ℚ)) false),
      progressOf (some 0) 0⟩] 0
    ⟨"W", some 7, none, some 0, "R1", some 0, ""⟩
    ⟨"W", "R1", "", FV.num 0, some 7, some (add_days 7 (Int.ceil (0 : ℚ)) false),
      progressOf (some 0) 0⟩
    depth0_run rfl rfl rfl rfl

/-- C8 (amended): for a row with an empty input end cell, a resolved
start and a finite `Duration`, the output end date is the start
advanced by the ceiling of the rounded `Duration` column,
`int(np.ceil(Duration))` with `Duration = round(depth / rate, 2)`:
the two-decimal display rounding happens before the ceiling and so
does feed the date arithmetic. -/
theorem C8_end_from_rounded_duration (rows : List Row) (rate : ℚ) (pol : Bool)
    (out : List ORow) (k : ℕ) (r : Row) (o : ORow) (s : ℤ) (q : ℚ)
    (hrun : compute_table_logic rows rate pol = Except.ok out)
    (hrow : rows.get? k = some r) (hend : r.endDate = none)
    (hok : out.get? k = some o) (hs : o.start = some s) (hq : o.dur = FV.num q) :
    o.stop = some (add_days s (Int.ceil q) pol) := by
  obtain ⟨st1, st2, st3, n, h1, h2, h3, hout⟩ := compute_ok rows rate pol out hrun
  have hFill : ∀ a b, fillEnd pol a = Except.ok b →
      (∀ s' q', a.start = some s' → a.dur = FV.num q' →
        (a.stop = none ∨ a.stop = some (add_days s' (Int.ceil q') pol))) →
      (∀ s' q', b.start = some s' → b.dur = FV.num q' →
        (b.stop = none ∨ b.stop = some (add_days s' (Int.ceil q') pol))) := by
    intro a b hf hp s' q' hs' hq'
    have hsk := fillEnd_skel pol a b hf
    have hdur : b.dur = a.dur := congrArg Skel.dur hsk.1
    have hsa : a.start = some s' := by rw [← hsk.2]; exact hs'
    have hqa : a.dur = FV.num q' := by rw [← hdur]; exact hq'
    rcases fillEnd_stop pol a b hf with he | ⟨hnone, s0, q0, hs0, hq0, hfill⟩
    · rw [he]
      exact hp s' q' hsa hqa
    · have hss : s0 = s' := by
        rw [hs0] at hsa
        exact Option.some_inj.mp hsa
      have hqq : q0 = q' := by
        rw [hq0] at hqa
        cases hqa
        rfl
      right
      rw [hfill, hss, hqq]
  have hW : ∀ (row : WRow) (depEnd : ℤ) (q0 : ℚ), row.dur = FV.num q0 →
      (fun w : WRow => ∀ s' q', w.start = some s' → w.dur = FV.num q' →
        (w.stop = none ∨ w.stop = some (add_days s' (Int.ceil q') pol)))
        { row with start := some (add_days depEnd 1 pol),
                   stop := some (add_days (add_days depEnd 1 pol) (Int.ceil q0) pol) } := by
    intro row depEnd q0 hq0 s' q' hs' hq'
    have hss : add_days depEnd 1 pol = s' := Option.some_inj.mp hs'
    have hqq : q0 = q' := by
      have : FV.num q0 = FV.num q' := by rw [← hq0]; exact hq'
      cases this
      rfl
    right
    rw [← hss, ← hqq]
  have hp0 : ∀ w, (rows.map (prep rate)).get? k = some w →
      (∀ s' q', w.start = some s' → w.dur = FV.num q' →
        (w.stop = none ∨ w.stop = some (add_days s' (Int.ceil q') pol))) := by
    intro w hw
    rw [listGetMap, hrow] at hw
    simp only [Option.map] at hw
    cases hw
    intro s' q' _ _
    exact Or.inl hend
  have hp1 := fillEnds_pred pol _ hFill _ st1 h1 k hp0
  have hp2 := depLoop_pred pol _ hW (2 * rows.length) st1 st2 n k h2 hp1
  have hp3 := fillEnds_pred pol _ hFill st2 st3 h3 k hp2
  have hwex : ∃ w, st3.get? k = some w ∧ finish w = o := by
    rw [hout, listGetMap] at hok
    cases hg : st3.get? k with
    | none => rw [hg] at hok; exact absurd hok (by simp)
    | some w =>
      rw [hg] at hok
      simp only [Option.map] at hok
      cases hok
      exact ⟨w, rfl, rfl⟩
  obtain ⟨w, hg, hfw⟩ := hwex
  have hws : w.start = some s := by rw [← hfw] at hs; exact hs
  have hwq : w.dur = FV.num q := by rw [← hfw] at hq; exact hq
  have hdef : w.stop.isSome := by
    rcases fillEnds_get2 pol st2 st3 h3 k with ⟨_, h2n⟩ | ⟨r2, w2, hr2, hw2, hf2⟩
    · rw [h2n] at hg; exact absurd hg (by simp)
    · rw [hw2] at hg
      cases hg
      exact fillEnd_defined pol r2 w s q hf2 hws hwq
  rcases hp3 w hg s q hws hwq with hnone | hform
  · rw [hnone] at hdef
    exact absurd hdef (by simp)
  · rw [← hfw]
    exact hform

/-- C8 witness: the depth-0 task of `depth0_run`: its end is its start
advanced by `ceil 0 = 0` days. -/
theorem C8_end_from_rounded_duration_witness :
    (⟨"W", "R1", "", FV.num 0, some 7, some (add_days 7 (Int.ceil (0 : ℚ)) false),
      progressOf (some 0) 0⟩ : ORow).stop = some (add_days 7 (Int.ceil (0 : ℚ)) false) :=
  C8_end_from_rounded_duration [⟨"W", some 7, none, some 0, "R1", some 0, ""⟩] 10 false
    [⟨"W", "R1", "", FV.num 0, some 7, some (add_days 7 (Int.ceil (0 : ℚ)) false),
      progressOf (some 0) 0⟩] 0
    ⟨"W", some 7, none, some 0, "R1", some 0, ""⟩
    ⟨"W", "R1", "", FV.num 0, some 7, some (add_days 7 (Int.ceil (0 : ℚ)) false),
      progressOf (some 0) 0⟩ 7 0
    depth0_run rfl rfl rfl rfl rfl

lemma dur_of_depth10 : durationFV (some (10 : ℚ)) 10 = FV.num 1 :=
  durationFV_eval _ _ _ (by norm_num)
    (round2_eval _ 1 100 (by norm_num) (by norm_num) (by norm_num))

lemma dur_of_depth2004 : durationFV (some ((501 : ℚ) / 25)) 10 = FV.num 2 :=
  durationFV_eval _ _ _ (by norm_num)
    (round2_eval _ 2 200 (by norm_num) (by norm_num) (by norm_num))

lemma dur_of_depth0 : durationFV (some (0 : ℚ)) 10 = FV.num 0 :=
  durationFV_eval _ _ _ (by norm_num)
    (round2_eval _ 0 0 (by norm_num) (by norm_num) (by norm_num))

/-- C3: the claim is right and the code is wrong.  A task with a start
date, an empty end cell and a missing (or non-numeric) planned depth
has a `NaN` `Duration`; line 91 evaluates `int(np.ceil(nan))`, which
raises `ValueError`, so the resolution call aborts instead of skipping
the row. -/
theorem C3_crash_on_undefined_duration :
    compute_table_logic [⟨"A", some 0, none, none, "R1", some 0, ""⟩] 10 false
      = Except.error () := rfl

/-- C4 (amended): the dependency loop runs at most `2 * taskCount`
passes (line 95: `max_passes = len(df) * 2`, not `max(5, taskCount)`)
and stops at the first pass that reports no change. -/
theorem C4_pass_budget :
    (∀ (rows : List Row) (rate : ℚ) (pol : Bool) (out : List ORow) (k : ℕ),
        compute_table_logic_full rows rate pol = Except.ok (out, k) →
        k ≤ 2 * rows.length) ∧
    (∀ (pol : Bool) (fuel : ℕ) (st st' : List WRow),
        depPass pol st = Except.ok (st', false) →
        depLoop pol (fuel + 1) st = Except.ok (st', 1)) := by
  constructor
  · intro rows rate pol out k h
    obtain ⟨st1, st2, _, _, h2, _, _⟩ := computeFull_ok rows rate pol out k h
    exact depLoop_count pol _ st1 st2 k h2
  · intro pol fuel st st' h
    exact depLoop_early pol fuel st st' h

/-- C4 witness: the empty table uses 0 passes, and a loop whose first
pass changes nothing stops after that single pass. -/
theorem C4_pass_budget_witness :
    (0 : ℕ) ≤ 2 * ([] : List Row).length ∧
    depLoop false 1 [] = Except.ok ([], 1) :=
  ⟨C4_pass_budget.1 [] 10 false [] 0 rfl, C4_pass_budget.2 false 0 [] [] rfl⟩

/-- C6 (amended): progress is `round(100 * cd / pd, 2)` for numeric
nonzero `pd` and `0` when `pd` is missing or when `pd = 0 = cd`; but
when `pd = 0` and `cd > 0` the pandas division yields `+inf`, which
`.fillna(0)` does not replace; the value lies in `[0, 100]` whenever
`0 ≤ cd ≤ pd`. -/
theorem C6_progress_formula :
    (∀ (p cd : ℚ), p ≠ 0 → progressOf (some p) cd = FV.num (round2 (cd / p * 100))) ∧
    (∀ cd : ℚ, progressOf none cd = FV.num 0) ∧
    (progressOf (some 0) 0 = FV.num 0) ∧
    (∀ cd : ℚ, 0 < cd → progressOf (some 0) cd = FV.pinf) ∧
    (∀ (p cd q : ℚ), 0 ≤ cd → cd ≤ p → progressOf (some p) cd = FV.num q →
      0 ≤ q ∧ q ≤ 100) := by
  refine ⟨?_, ?_, ?_, ?_, ?_⟩
  · intro p cd hp
    simp [progressOf, hp]
  · intro cd
    rfl
  · rfl
  · intro cd hcd
    simp [progressOf, hcd, not_lt_of_lt hcd]
  · intro p cd q h0 h1 hpq
    by_cases hp : p = 0
    · subst hp
      have hcd : cd = 0 := le_antisymm h1 h0
      subst hcd
      have : FV.num 0 = FV.num q := hpq
      cases this
      norm_num
    · have hform : progressOf (some p) cd = FV.num (round2 (cd / p * 100)) := by
        simp [progressOf, hp]
      rw [hform] at hpq
      have hppos : 0 < p := lt_of_le_of_ne (le_trans h0 h1) (Ne.symm hp)
      have hx0 : 0 ≤ cd / p * 100 := by positivity
      have hx1 : cd / p * 100 ≤ 100 := by
        have : cd / p ≤ 1 := (div_le_one hppos).mpr h1
        linarith
      have hb := round2_bounds _ hx0 hx1
      cases hpq
      exact hb

/-- C6 witness: the formula, the missing-depth case, the `+inf` case
and the `[0, 100]` range at concrete depths. -/
theorem C6_progress_formula_witness :
    progressOf (some 4) 1 = FV.num (round2 ((1 : ℚ) / 4 * 100)) ∧
    progressOf none 3 = FV.num 0 ∧
    progressOf (some 0) 2 = FV.pinf ∧
    (0 ≤ round2 ((1 : ℚ) / 4 * 100) ∧ round2 ((1 : ℚ) / 4 * 100) ≤ 100) :=
  ⟨C6_progress_formula.1 4 1 (by norm_num),
   C6_progress_formula.2.1 3,
   C6_progress_formula.2.2.2.1 2 (by norm_num),
   C6_progress_formula.2.2.2.2 4 1 _ (by norm_num) (by norm_num)
     (C6_progress_formula.1 4 1 (by norm_num))⟩

/-- C1 counterexample: task B has the user-supplied start day 100 and
a same-rig dependency on task A, whose end resolves to day 1; the
loop body overwrites B's start with day 2 (A's end + 1), so the
manual start is not authoritative. -/
theorem C1_counterexample :
    (compute_table_logic
        [⟨"A", some 0, none, some 10, "R1", some 0, ""⟩,
         ⟨"B", some 100, none, some 10, "R1", some 0, "A"⟩] 10 false).map
      (fun l => l.map ORow.start) = Except.ok [some 0, some 2] ∧
    ((some (2 : ℤ) = some (100 : ℤ)) → False) := by
  constructor
  · have hprep : ([⟨"A", some 0, none, some 10, "R1", some 0, ""⟩,
        ⟨"B", some 100, none, some 10, "R1", some 0, "A"⟩] : List Row).map (prep 10)
        = [⟨"A", "R1", "", FV.num 1, some 10, 0, some 0, none⟩,
           ⟨"B", "R1", "A", FV.num 1, some 10, 0, some 100, none⟩] := by
      simp only [List.map_cons, List.map_nil, prep, dur_of_depth10]
      rfl
    unfold compute_table_logic compute_table_logic_full
    rw [hprep]
    rfl
  · intro h
    exact absurd (Option.some_inj.mp h) (by norm_num)

/-- C2 counterexample: task B (no start, no dependency, rig R1) stays
unresolved even though the same-rig task A before it ends on day 1;
the fallback the claim describes would have set B's start to day 2. -/
theorem C2_counterexample :
    (compute_table_logic
        [⟨"A", some 0, none, some 10, "R1", some 0, ""⟩,
         ⟨"B", none, none, none, "R1", some 0, ""⟩] 10 false).map
      (fun l => l.map ORow.start) = Except.ok [some 0, none] ∧
    (((none : Option ℤ) = some (add_days 1 1 false)) → False) := by
  constructor
  · have hprep : ([⟨"A", some 0, none, some 10, "R1", some 0, ""⟩,
        ⟨"B", none, none, none, "R1", some 0, ""⟩] : List Row).map (prep 10)
        = [⟨"A", "R1", "", FV.num 1, some 10, 0, some 0, none⟩,
           ⟨"B", "R1", "", FV.nan, none, 0, none, none⟩] := by
      simp only [List.map_cons, List.map_nil, prep, dur_of_depth10]
      rfl
    unfold compute_table_logic compute_table_logic_full
    rw [hprep]
    rfl
  · intro h
    exact absurd h (by decide)

/-- C4 counterexample: a three-task same-rig dependency cycle changes
dates on every pass, so the loop executes its full budget of
`2 * 3 = 6` passes, exceeding the claimed `max(5, 3) = 5` bound. -/
theorem C4_counterexample :
    (compute_table_logic_full
        [⟨"A", some 0, none, some 10, "R", some 0, "C"⟩,
         ⟨"B", none, none, some 10, "R", some 0, "A"⟩,
         ⟨"C", none, none, some 10, "R", some 0, "B"⟩] 10 false).map
      (fun p => p.2) = Except.ok 6 ∧
    ((6 : ℕ) ≤ max 5 3 → False) := by
  constructor
  · have hprep : ([⟨"A", some 0, none, some 10, "R", some 0, "C"⟩,
        ⟨"B", none, none, some 10, "R", some 0, "A"⟩,
        ⟨"C", none, none, some 10, "R", some 0, "B"⟩] : List Row).map (prep 10)
        = [⟨"A", "R", "C", FV.num 1, some 10, 0, some 0, none⟩,
           ⟨"B", "R", "A", FV.num 1, some 10, 0, none, none⟩,
           ⟨"C", "R", "B", FV.num 1, some 10, 0, none, none⟩] := by
      simp only [List.map_cons, List.map_nil, prep, dur_of_depth10]
      rfl
    unfold compute_table_logic_full
    rw [hprep]
    rfl
  · intro h
    exact absurd h (by norm_num)

/-- C5 counterexample: an externally supplied end date on a task with
no start date survives the resolution, so the output row has an end
date but no start date. -/
theorem C5_counterexample :
    (compute_table_logic [⟨"A", none, some 5, none, "R1", some 0, ""⟩] 10 false).map
      (fun l => l.map (fun r => (r.start, r.stop)))
      = Except.ok [((none : Option ℤ), some (5 : ℤ))] ∧
    ¬((some (5 : ℤ)).isSome → (none : Option ℤ).isSome) := by
  exact ⟨rfl, by decide⟩

/-- C6 counterexample: with planned depth 0 and current depth 5 the
progress value is `+inf` (pandas division by zero, untouched by
`.fillna(0)`), not the claimed 0. -/
theorem C6_counterexample :
    (compute_table_logic [⟨"A", none, none, some 0, "", some 5, ""⟩] 10 false).map
      (fun l => l.map ORow.progress) = Except.ok [FV.pinf] ∧
    (FV.pinf = FV.num 0 → False) := by
  constructor
  · have hprep : ([⟨"A", none, none, some 0, "", some 5, ""⟩] : List Row).map (prep 10)
        = [⟨"A", "", "", FV.num 0, some 0, 5, none, none⟩] := by
      simp only [List.map_cons, List.map_nil, prep, dur_of_depth0]
      rfl
    unfold compute_table_logic compute_table_logic_full
    rw [hprep]
    rfl
  · intro h
    exact absurd h (by decide)

/-- C7 counterexample: both tasks have an empty rig label, yet B's
dependency on A does fire (`"" == ""`), setting B's dates; the claim
required both rig labels to be non-empty for any effect. -/
theorem C7_counterexample :
    (compute_table_logic
        [⟨"A", some 0, none, some 10, "", some 0, ""⟩,
         ⟨"B", none, none, some 10, "", some 0, "A"⟩] 10 false).map
      (fun l => l.map ORow.start) = Except.ok [some 0, some 2] ∧
    ((some (2 : ℤ) = (none : Option ℤ)) → False) := by
  constructor
  · have hprep : ([⟨"A", some 0, none, some 10, "", some 0, ""⟩,
        ⟨"B", none, none, some 10, "", some 0, "A"⟩] : List Row).map (prep 10)
        = [⟨"A", "", "", FV.num 1, some 10, 0, some 0, none⟩,
           ⟨"B", "", "A", FV.num 1, some 10, 0, none, none⟩] := by
      simp only [List.map_cons, List.map_nil, prep, dur_of_depth10]
      rfl
    unfold compute_table_logic compute_table_logic_full
    rw [hprep]
    rfl
  · intro h
    exact absurd h (by decide)

/-- C8 counterexample: planned depth 20.04 at rate 10 has exact
duration 2.004; the code rounds the `Duration` column to 2.00 first
and advances by `ceil(2.00) = 2` days, while the claim's
`ceil(2.004) = 3` would land on day 3: the display rounding does
influence the computed dates. -/
theorem C8_counterexample :
    (compute_table_logic [⟨"A", some 0, none, some ((501 : ℚ) / 25), "R1", some 0, ""⟩]
        10 false).map
      (fun l => l.map (fun r => (r.dur, r.start, r.stop)))
      = Except.ok [(FV.num 2, some 0, some 2)] ∧
    Int.ceil ((501 : ℚ) / 25 / 10) = 3 ∧ add_days 0 3 false = 3 ∧
    (((2 : ℤ) = 3) → False) := by
  refine ⟨?_, ?_, rfl, by norm_num⟩
  · have hprep : ([⟨"A", some 0, none, some ((501 : ℚ) / 25), "R1", some 0, ""⟩] :
        List Row).map (prep 10)
        = [⟨"A", "R1", "", FV.num 2, some ((501 : ℚ) / 25), 0, some 0, none⟩] := by
      simp only [List.map_cons, List.map_nil, prep, dur_of_depth2004]
      rfl
    unfold compute_table_logic compute_table_logic_full
    rw [hprep]
    rfl
  · rw [Int.ceil_eq_iff]
    constructor <;> norm_num
